import Mathlib

/-!
Verification of the outrun file-system cache and its local RPC services.

This file is a shallow embedding of the Python source of the `outrun`
repository.  Python dataclasses become Lean structures, machine integers and
timestamps become `Nat`/`Int`, Python `Optional[T]` becomes `Option T`,
raising code returns `Except`, and the few I/O points (`os.lstat`, `os.open`,
RPC calls, `uuid.uuid4`) become explicit oracle parameters so that the pure
control flow of the Python is preserved verbatim.  Dictionaries with unique
keys become association lists.
-/

namespace Outrun

/-- Serialized Python values appearing in exception args (a closed model of the
`msgpack`/`json`-representable payloads that outrun passes around). -/
inductive PyVal where
  | int (i : Int)
  | str (s : String)
deriving DecidableEq, Repr

/-- A Python exception, modelled by its class name (`kind`) and its `args`
tuple.  This is exactly the data `Encoding._serialize_exception` keeps. -/
structure Exc where
  kind : String
  args : List PyVal
deriving DecidableEq, Repr

/-- `stat.S_IWUSR` (0o200). -/
def S_IWUSR : Nat := 0o200

/-- `stat.S_IWGRP` (0o20). -/
def S_IWGRP : Nat := 0o20

/-- `stat.S_IWOTH` (0o2). -/
def S_IWOTH : Nat := 0o2

/-- `outrun.filesystem.common.Attributes`: os.stat_result as a dataclass.
`st_atime_ns` is `Option Int` because `LocalCacheService._significant_meta`
replaces it with `None`; all real metadata carries `some`. -/
structure Attributes where
  st_mode : Nat
  st_ino : Nat
  st_dev : Nat
  st_nlink : Nat
  st_uid : Nat
  st_gid : Nat
  st_size : Nat
  st_atime_ns : Option Int
  st_mtime_ns : Int
  st_ctime_ns : Int
deriving DecidableEq, Repr

/-- `Attributes.as_readonly`: copy with the write permissions removed from the
mode.  Python computes `st_mode & ~(S_IWUSR | S_IWGRP | S_IWOTH)`; on
non-negative integers `x & ~y` is exactly `Nat.ldiff x y`. -/
def Attributes.as_readonly (a : Attributes) : Attributes :=
  { a with st_mode := Nat.ldiff a.st_mode (S_IWUSR ||| S_IWGRP ||| S_IWOTH) }

/-- `outrun.filesystem.caching.common.Metadata`: attributes and/or symlink
target, or the I/O error raised while fetching them. -/
structure Metadata where
  attr : Option Attributes := none
  link : Option String := none
  error : Option Exc := none
deriving DecidableEq, Repr

/-- `outrun.filesystem.caching.common.FileContents`: compressed data, checksum
of the raw data and raw size.  The bytes are modelled as a list of byte
values. -/
structure FileContents where
  compressed_data : List Nat
  checksum : String
  size : Nat
deriving DecidableEq, Repr

/-- `outrun.filesystem.caching.common.PrefetchEntry`. -/
structure PrefetchEntry where
  path : String
  metadata : Metadata
  contents : Option FileContents
deriving DecidableEq, Repr

/-- `outrun.filesystem.caching.cache.ContentsBlob`: reference to the on-disk
file holding cached contents. -/
structure ContentsBlob where
  storage : String
  size : Nat
  checksum : String
  dirty : Bool := false
deriving DecidableEq, Repr

/-- `outrun.filesystem.caching.cache.CacheEntry`.  Timestamps (`time.time()`
floats in Python) are modelled as naturals; only their ordering matters. -/
structure CacheEntry where
  path : String
  meta : Metadata
  last_access : Nat
  last_update : Nat
  contents : Option ContentsBlob := none
deriving DecidableEq, Repr

/-- `CacheEntry.newer_than`: `other is None or self.last_update > other.last_update`. -/
def CacheEntry.newer_than (e : CacheEntry) (other : Option CacheEntry) : Bool :=
  match other with
  | none => true
  | some o => e.last_update > o.last_update

/-!
## `RemoteCache.get_metadata`

`_lock_entry` refreshes `last_access` on an existing entry and yields it; the
method body then inspects the stored metadata.  The model takes the entry
found in `self._entries` together with the current time and returns the
updated stored entry alongside the outcome (`Except` models `raise`).
-/

/-- The `ValueError("entry is missing attributes")` raised by
`RemoteCache.get_metadata`. -/
def missingAttrError : Exc :=
  { kind := "ValueError", args := [.str "entry is missing attributes"] }

/-- `RemoteCache.get_metadata` acting on an existing cache entry: `_lock_entry`
sets `last_access` to the current time, then the stored error is re-raised,
a `ValueError` is raised when attributes are absent, and otherwise a copy of
the metadata with write bits stripped is returned. -/
def get_metadata (now : Nat) (e : CacheEntry) : CacheEntry × Except Exc Metadata :=
  let e' := { e with last_access := now }
  (e',
    match e'.meta.error with
    | some err => .error err
    | none =>
      match e'.meta.attr with
      | none => .error missingAttrError
      | some a => .ok { e'.meta with attr := some a.as_readonly })

/-!
## `LocalCacheService`: metadata diffing and prefetch wrappers

`LocalCacheService.get_metadata` performs `os.lstat`/`os.readlink`; the host
file system is abstracted as an oracle `fs : String → Metadata` giving the
metadata record that call would currently build for each path.
-/

/-- `LocalCacheService._significant_meta`: the derivative used to decide
whether metadata changed significantly.  Python builds
`(replace(meta.attr, st_atime_ns=None) if meta.attr else None,
(type(meta.error), meta.error.args) if meta.error else None, meta.link)`. -/
def significant_meta (m : Metadata) :
    Option Attributes × Option (String × List PyVal) × Option String :=
  (m.attr.map (fun a => { a with st_atime_ns := none }),
   m.error.map (fun e => (e.kind, e.args)),
   m.link)

/-- `LocalCacheService.get_changed_metadata` over an association list of cached
metadata, with the host file system given by the oracle `fs`. -/
def get_changed_metadata (fs : String → Metadata)
    (cached : List (String × Metadata)) : List (String × Metadata) :=
  cached.filterMap (fun pm =>
    let fresh := fs pm.1
    if significant_meta fresh ≠ significant_meta pm.2 then some (pm.1, fresh)
    else none)

/-- `LocalCacheService.get_metadata_prefetch`: the primary metadata has already
been fetched; `resolved` is the outcome of
`self._resolve_prefetches(prefetching.file_access(path))`, whose exceptions
are swallowed into an empty prefetch list. -/
def get_metadata_prefetch (base : Metadata)
    (resolved : Except Exc (List PrefetchEntry)) : Metadata × List PrefetchEntry :=
  match resolved with
  | .ok ps => (base, ps)
  | .error _ => (base, [])

/-- `LocalCacheService.readfile_prefetch`: same shape as
`get_metadata_prefetch` with `prefetching.file_read` and a `FileContents`
primary result. -/
def readfile_prefetch (base : FileContents)
    (resolved : Except Exc (List PrefetchEntry)) : FileContents × List PrefetchEntry :=
  match resolved with
  | .ok ps => (base, ps)
  | .error _ => (base, [])

/-!
## `rpc.Encoding`: exception codec

`_deserialize_exception` looks the class name up in Python's `builtins`
module and checks `isinstance(builtin_exc, type) and issubclass(builtin_exc,
BaseException)`.  That membership test is abstracted as the predicate
`isBuiltinExc`. -/

/-- `Encoding._serialize_exception`: an exception serializes to its class name
and its args. -/
def serialize_exception (e : Exc) : String × List PyVal :=
  (e.kind, e.args)

/-- `Encoding._deserialize_exception`: rebuild the exception by name when the
name denotes a builtin exception type, otherwise fall back to a generic
`Exception` carrying the original args. -/
def deserialize_exception (isBuiltinExc : String → Bool)
    (obj : String × List PyVal) : Exc :=
  if isBuiltinExc obj.1 then { kind := obj.1, args := obj.2 }
  else { kind := "Exception", args := obj.2 }

/-!
## `RemoteCache.save`: merge, LRU cleanup and blob garbage collection

`self._entries` is a dict with unique keys; it is modelled as an association
list.  Python's stable ascending `list.sort(key=...)` is modelled by a stable
insertion sort on the `last_access` key.  The model of `_lru_cleanup` returns
the retained entries in ascending `last_access` order; as a key/value mapping
this is the same dictionary Python keeps (Python preserves insertion order,
which the claims do not depend on).
-/

/-- The size of an optional contents blob (`e.contents.size` when present). -/
def blobSize : Option ContentsBlob → Nat
  | none => 0
  | some b => b.size

/-- `RemoteCache.size` over a set of entries:
`sum(e.contents.size for e in entries if e.contents)`. -/
def totalBlobSize (entries : List (String × CacheEntry)) : Nat :=
  (entries.map (fun kv => blobSize kv.2.contents)).sum

/-- Stable insertion into a list sorted by ascending `last_access`; an element
is placed before the first strictly larger key, hence after earlier equal
keys, which is Python's stable sort order. -/
def insertByAccess (x : String × CacheEntry) :
    List (String × CacheEntry) → List (String × CacheEntry)
  | [] => [x]
  | y :: ys =>
    if x.2.last_access ≤ y.2.last_access then x :: y :: ys
    else y :: insertByAccess x ys

/-- Model of `oldest_entries.sort(key=lambda tuple: tuple[1].last_access)`:
a stable sort ascending by `last_access`. -/
def sortByAccess : List (String × CacheEntry) → List (String × CacheEntry)
  | [] => []
  | x :: xs => insertByAccess x (sortByAccess xs)

/-- The body of the `_lru_cleanup` loop.  `cnt` and `sz` are the running
`entry_count` and `contents_size` variables; the traversal is over the sorted
snapshot `oldest_entries`, dropping contents while the size budget is
exceeded and deleting entries while the count budget is exceeded. -/
def lruGo (maxE maxS : Nat) :
    List (String × CacheEntry) → Nat → Nat → List (String × CacheEntry)
  | [], _, _ => []
  | (k, e) :: rest, cnt, sz =>
    let dropC := maxS < sz ∧ e.contents.isSome
    let e' := if dropC then { e with contents := none } else e
    let sz' := if dropC then sz - blobSize e.contents else sz
    if maxE < cnt then lruGo maxE maxS rest (cnt - 1) sz'
    else (k, e') :: lruGo maxE maxS rest cnt sz'

/-- `RemoteCache._lru_cleanup`: sort the entries ascending by `last_access`,
then walk them once with the running count and size. -/
def lru_cleanup (maxE maxS : Nat)
    (entries : List (String × CacheEntry)) : List (String × CacheEntry) :=
  let sorted := sortByAccess entries
  lruGo maxE maxS sorted sorted.length (totalBlobSize sorted)

/-- `self._entries.get(key)` on an association list. -/
def lookupEntry (entries : List (String × CacheEntry)) (key : String) :
    Option CacheEntry :=
  (entries.find? (fun kv => kv.1 == key)).map (·.2)

/-- `self._entries[key] = entry`: replace in place when the key exists
(Python dicts keep the original position), append otherwise. -/
def setEntry (key : String) (e : CacheEntry) :
    List (String × CacheEntry) → List (String × CacheEntry)
  | [] => [(key, e)]
  | kv :: rest =>
    if kv.1 == key then (key, e) :: rest else kv :: setEntry key e rest

/-- The merge loop of `RemoteCache.save`: each disk entry replaces the
in-memory entry for its key when it is `newer_than` it. -/
def mergeDiskEntries (mem disk : List (String × CacheEntry)) :
    List (String × CacheEntry) :=
  disk.foldl
    (fun acc kv =>
      if kv.2.newer_than (lookupEntry acc kv.1) then setEntry kv.1 kv.2 acc
      else acc)
    mem

/-- The in-memory entries after the optional merge step of `save`:
`_read_disk_entries` may fail (`diskRead = .error`), in which case the merge
is skipped and the in-memory entries are kept. -/
def save_merged (merge_disk_cache : Bool) (mem : List (String × CacheEntry))
    (diskRead : Except Unit (List (String × CacheEntry))) :
    List (String × CacheEntry) :=
  if merge_disk_cache then
    match diskRead with
    | .ok disk => mergeDiskEntries mem disk
    | .error _ => mem
  else mem

/-- The storage paths referenced by the entries that still carry contents. -/
def referencedStorages (entries : List (String × CacheEntry)) : List String :=
  entries.filterMap (fun kv => kv.2.contents.map (·.storage))

/-- `RemoteCache._garbage_collect_blobs`: every file in the contents directory
that is not referenced by a surviving entry is deleted; the files that remain
on disk are exactly the referenced ones among those present. -/
def garbage_collect_blobs (entries : List (String × CacheEntry))
    (diskFiles : List String) : List String :=
  diskFiles.filter (fun f => (referencedStorages entries).contains f)

/-- `RemoteCache.save`: merge the disk index into memory (conflicts resolved
by `newer_than`), run the LRU pass, garbage-collect unreferenced blob files,
and write the index.  Returns the saved entries and the blob files remaining
on disk. -/
def save (maxE maxS : Nat) (merge_disk_cache : Bool)
    (mem : List (String × CacheEntry))
    (diskRead : Except Unit (List (String × CacheEntry)))
    (diskFiles : List String) :
    List (String × CacheEntry) × List String :=
  let merged := save_merged merge_disk_cache mem diskRead
  let cleaned := lru_cleanup maxE maxS merged
  (cleaned, garbage_collect_blobs cleaned diskFiles)

/-!
Specification-side decomposition of the LRU pass, used to state the eviction
order: a single pass that clears contents from a prefix of the sorted list
(while the size budget is exceeded) and leaves the rest untouched. -/

/-- The size-driven half of the LRU loop in isolation: clear contents while
`sz` exceeds the budget, leave the entries and `sz` alone otherwise. -/
def stripPass (maxS : Nat) :
    List (String × CacheEntry) → Nat → List (String × CacheEntry)
  | [], _ => []
  | (k, e) :: rest, sz =>
    if maxS < sz ∧ e.contents.isSome then
      (k, { e with contents := none }) :: stripPass maxS rest (sz - blobSize e.contents)
    else (k, e) :: stripPass maxS rest sz

/-- Clearing the contents of one entry. -/
def clearContents (kv : String × CacheEntry) : String × CacheEntry :=
  (kv.1, { kv.2 with contents := none })

/-!
## `RemoteCache.open_contents` (prefetching disabled)

The model instantiates `self._prefetch = False`, so `_update_contents` calls
`readfile_conditional`/`readfile` on the RPC client.  The client, the
`uuid.uuid4().hex` storage-name generator and `os.open` are oracles; the open
oracle and the name oracle are indexed by the attempt number so each retry
can behave differently.  `os.open` either yields a descriptor or raises
`FileNotFoundError` (`none`).  The `while True:` retry loop is modelled with
explicit fuel: a `none` overall result means the loop is still running after
`fuel` iterations (the Python has no bound at all).
-/

/-- The RPC client calls used by `_update_contents` when prefetching is
disabled.  `readfile_conditional path checksum` returns `none` when the
checksum is unchanged. -/
structure ContentsClient where
  readfile_conditional : String → String → Except Exc (Option FileContents)
  readfile : String → Except Exc FileContents

/-- `RemoteCache._save_contents`: write the data to a fresh file (`storage` is
the oracle-supplied `uuid` path) and describe it with a clean blob. -/
def save_contents (storage : String) (c : FileContents) : ContentsBlob :=
  { storage := storage, size := c.size, checksum := c.checksum }

/-- `RemoteCache._update_contents` with prefetching disabled: conditional
refresh against the stored checksum unless forced or cold, unconditional
`readfile` otherwise. -/
def update_contents (client : ContentsClient) (storage : String)
    (e : CacheEntry) (force : Bool) : Except Exc ContentsBlob :=
  match force, e.contents with
  | false, some c =>
    match client.readfile_conditional e.path c.checksum with
    | .error exc => .error exc
    | .ok none => .ok { c with dirty := false }
    | .ok (some contents) => .ok (save_contents storage contents)
  | _, _ =>
    match client.readfile e.path with
    | .error exc => .error exc
    | .ok contents => .ok (save_contents storage contents)

/-- The `while True:` loop of `open_contents`.  `openO i storage` is the
result of the `i`-th `os.open` call (`none` = `FileNotFoundError`), `names i`
the storage path for the `i`-th forced refresh.  The result carries the file
descriptor, the final entry and the number of forced refreshes; `none` means
the loop is still running after `fuel` iterations. -/
def openLoop (client : ContentsClient) (openO : Nat → String → Option Nat)
    (names : Nat → String) :
    Nat → Nat → CacheEntry → Option (Except Exc (Nat × CacheEntry × Nat))
  | 0, _, _ => none
  | fuel + 1, i, e =>
    match e.contents with
    | none => some (.error { kind := "AttributeError", args := [] })
    | some blob =>
      match openO i blob.storage with
      | some fd => some (.ok (fd, e, i))
      | none =>
        match update_contents client (names (i + 1)) e true with
        | .error exc => some (.error exc)
        | .ok blob' => openLoop client openO names fuel (i + 1) { e with contents := some blob' }

/-- `RemoteCache.open_contents` with prefetching disabled, acting on the
locked entry: refresh the contents when absent or dirty, then repeatedly try
to open the blob file, force-refreshing on `FileNotFoundError`. -/
def open_contents (client : ContentsClient) (openO : Nat → String → Option Nat)
    (names : Nat → String) (fuel : Nat) (e : CacheEntry) :
    Option (Except Exc (Nat × CacheEntry × Nat)) :=
  match
    (if e.contents.isNone ∨ (e.contents.map (·.dirty)).getD false then
      (update_contents client (names 0) e false).map
        (fun blob => { e with contents := some blob })
    else .ok e : Except Exc CacheEntry)
  with
  | .error exc => some (.error exc)
  | .ok e' => openLoop client openO names fuel 0 e'

/-!
## `RemoteCache.is_cacheable` and `LocalCacheService._is_prefetchable`

Both are the expression
`any(os.path.commonpath([path, p]) == p for p in paths)`.
`os.path.commonpath` is Python's `posixpath.commonpath`: it splits each path
on `/`, discards empty and `.` components, takes the longest common component
prefix, and rebuilds a path; mixing absolute and relative paths raises
`ValueError`.  Paths are manipulated through their character lists so every
step is structural.
-/

/-- Python's `path.split("/")`: split on every separator, keeping empty
pieces. -/
def splitChars (sep : Char) : List Char → List (List Char)
  | [] => [[]]
  | c :: cs =>
    let r := splitChars sep cs
    if c = sep then [] :: r
    else
      match r with
      | [] => [[c]]
      | h :: t => (c :: h) :: t

/-- `path[:1] == "/"`, the absoluteness test of `posixpath.commonpath`. -/
def isAbs (s : String) : Bool :=
  match s.data with
  | '/' :: _ => true
  | _ => false

/-- The component list of a path:
`[c for c in path.split(sep) if c and c != curdir]`. -/
def components (s : String) : List (List Char) :=
  (splitChars '/' s.data).filter (fun c => !c.isEmpty && !(c == ['.']))

/-- The longest common prefix of two component lists, as computed by the
`commonpath` loop over `min`/`max` of the split paths. -/
def commonStem : List (List Char) → List (List Char) → List (List Char)
  | [], _ => []
  | _, [] => []
  | a :: as, b :: bs => if a = b then a :: commonStem as bs else []

/-- Python's `sep.join(components)`. -/
def joinComps : List (List Char) → List Char
  | [] => []
  | [x] => x
  | x :: xs => x ++ '/' :: joinComps xs

/-- `posixpath.commonpath([a, b])` for two paths, returning the character
list of the common path, or an error when one path is absolute and the other
relative. -/
def commonpath2 (a b : String) : Except Unit (List Char) :=
  if isAbs a = isAbs b then
    .ok ((if isAbs a then ['/'] else []) ++ joinComps (commonStem (components a) (components b)))
  else .error ()

/-- `any(os.path.commonpath([path, p]) == p for p in paths)` with the
short-circuit evaluation of `any` over the generator: a `ValueError` raised
by `commonpath` propagates unless a match is found first. -/
def anyCommonpathMatch (paths : List String) (path : String) : Except Unit Bool :=
  match paths with
  | [] => .ok false
  | q :: rest =>
    match commonpath2 path q with
    | .error e => .error e
    | .ok c => if c = q.data then .ok true else anyCommonpathMatch rest path

/-- `RemoteCache.is_cacheable`. -/
def is_cacheable (cacheable_paths : List String) (path : String) : Except Unit Bool :=
  anyCommonpathMatch cacheable_paths path

/-- `LocalCacheService._is_prefetchable`: `None` disables the filter,
otherwise the same `any(...)` expression as `is_cacheable`. -/
def is_prefetchable (prefetchable_paths : Option (List String)) (path : String) :
    Except Unit Bool :=
  match prefetchable_paths with
  | none => .ok true
  | some paths => anyCommonpathMatch paths path

/-- The specification's cacheability predicate: some configured path is a
prefix of the probed path ending at a path-component boundary.  Modelled
from the spec: component-wise prefix of the normalized absolute paths. -/
def boundaryPrefixMatch (paths : List String) (path : String) : Bool :=
  paths.any (fun q => (components q).isPrefixOf (components path))

/-- `RemoteCache.DEFAULT_CACHEABLE_PATHS`. -/
def DEFAULT_CACHEABLE_PATHS : List String :=
  ["/bin", "/sbin", "/lib", "/lib32", "/lib64", "/etc", "/opt", "/usr"]

/-!
## Concrete sample data used by the witnesses
-/

/-- A sample attribute record whose mode has all write bits set. -/
def attrEx : Attributes :=
  { st_mode := 0o666, st_ino := 2, st_dev := 3, st_nlink := 1, st_uid := 1000,
    st_gid := 1000, st_size := 42, st_atime_ns := some 5, st_mtime_ns := 6,
    st_ctime_ns := 7 }

/-- A sample cache entry carrying attributes and no error. -/
def entryEx : CacheEntry :=
  { path := "/usr/lib/x", meta := { attr := some attrEx }, last_access := 3,
    last_update := 4 }

/-- A sample cache entry whose metadata carries a stored I/O error. -/
def entryErrEx : CacheEntry :=
  { path := "/x", meta := { error := some ⟨"FileNotFoundError", [.int 2]⟩ },
    last_access := 1, last_update := 1 }

/-- A sample cache entry with neither attributes nor error. -/
def entryEmptyEx : CacheEntry :=
  { path := "/y", meta := {}, last_access := 1, last_update := 1 }

/-- A sample clean contents blob stored at `"blob1"`. -/
def blobEx : ContentsBlob := { storage := "blob1", size := 3, checksum := "cs" }

/-- A one-entry in-memory cache whose entry references `blobEx`. -/
def memEx : List (String × CacheEntry) :=
  [("m:/a", { path := "/a", meta := { attr := some attrEx }, last_access := 5,
              last_update := 5, contents := some blobEx })]

/-- A sample RPC client whose reads always succeed with fresh two-byte
contents whose checksum is `"cs2"`. -/
def clientEx : ContentsClient :=
  { readfile_conditional := fun _ _ => .ok (some ⟨[9, 9], "cs2", 2⟩),
    readfile := fun _ => .ok ⟨[9, 9], "cs2", 2⟩ }

/-- A sample storage-name oracle for `_save_contents`. -/
def namesEx : Nat → String := fun _ => "new0"

/-- The blob `_save_contents` builds from `clientEx`'s contents under
`namesEx`. -/
def freshBlobEx : ContentsBlob :=
  { storage := "new0", size := 2, checksum := "cs2" }

/-- A sample cache entry whose cached contents are marked dirty. -/
def dirtyEntryEx : CacheEntry :=
  { path := "/usr/f", meta := { attr := some attrEx }, last_access := 3,
    last_update := 4,
    contents := some { storage := "old", size := 3, checksum := "cs1", dirty := true } }

/-- A sample cache entry with clean cached contents whose blob file has
disappeared from disk. -/
def cleanEntryEx : CacheEntry :=
  { path := "/usr/g", meta := { attr := some attrEx }, last_access := 1,
    last_update := 2,
    contents := some { storage := "gone", size := 3, checksum := "c0" } }

/-- An `os.open` oracle that fails with `FileNotFoundError` on the first
attempt and succeeds with descriptor 7 afterwards. -/
def openOnRetryEx : Nat → String → Option Nat := fun i _ =>
  if i = 0 then none else some 7

end Outrun

namespace Outrun

/-!
## Claims
-/

/-- **C4.** `LocalCacheService.get_changed_metadata({p: m})` returns the empty
map when the current metadata differs from `m` only in the access-time field;
it returns `{p: fresh}` when the size, mode, mtime, link target or error
kind/args differ; and the comparison treats exceptions as equal exactly when
their type and args match. -/
theorem get_changed_metadata_significance (fs : String → Metadata) (p : String)
    (m : Metadata) :
    (get_changed_metadata fs [(p, m)] = [] ↔
      significant_meta (fs p) = significant_meta m)
    ∧ (∀ a t, m.attr = some a →
        fs p = { m with attr := some { a with st_atime_ns := t } } →
        get_changed_metadata fs [(p, m)] = [])
    ∧ (∀ a b, m.attr = some a → (fs p).attr = some b →
        (a.st_size ≠ b.st_size ∨ a.st_mode ≠ b.st_mode ∨
          a.st_mtime_ns ≠ b.st_mtime_ns) →
        get_changed_metadata fs [(p, m)] = [(p, fs p)])
    ∧ (m.link ≠ (fs p).link → get_changed_metadata fs [(p, m)] = [(p, fs p)])
    ∧ (∀ e₁ e₂, m.error = some e₁ → (fs p).error = some e₂ →
        ((significant_meta (fs p)).2.1 = (significant_meta m).2.1 ↔
          (e₂.kind = e₁.kind ∧ e₂.args = e₁.args))) := by
  have hform : get_changed_metadata fs [(p, m)] =
      if significant_meta (fs p) ≠ significant_meta m then [(p, fs p)] else [] := by
    simp only [get_changed_metadata, List.filterMap]
    by_cases h : significant_meta (fs p) ≠ significant_meta m <;> simp [h]
  refine ⟨?_, ?_, ?_, ?_, ?_⟩
  · rw [hform]
    by_cases h : significant_meta (fs p) = significant_meta m <;> simp [h]
  · intro a t ha hfresh
    rw [hform]
    have heq : significant_meta (fs p) = significant_meta m := by
      simp [significant_meta, hfresh, ha]
    rw [heq]
    simp
  · intro a b ha hb hdiff
    rw [hform]
    have hne : significant_meta (fs p) ≠ significant_meta m := by
      intro h
      have h1 : (fs p).attr.map (fun x => { x with st_atime_ns := none }) =
          m.attr.map (fun x => { x with st_atime_ns := none }) := congrArg Prod.fst h
      rw [ha, hb] at h1
      simp only [Option.map_some', Option.some.injEq] at h1
      rcases hdiff with h' | h' | h' <;> exact h' (by cases a; cases b; simp_all)
    simp [hne]
  · intro hlink
    rw [hform]
    have hne : significant_meta (fs p) ≠ significant_meta m := by
      intro h
      exact hlink ((congrArg (fun t => t.2.2) h).symm)
    simp [hne]
  · intro e₁ e₂ h₁ h₂
    simp [significant_meta, h₁, h₂]

/-- Witness for C4 at concrete inputs: an access-time-only change is not
reported, a size change is. -/
theorem get_changed_metadata_significance_witness :
    get_changed_metadata
      (fun _ => { attr := some { attrEx with st_atime_ns := some 99 } })
      [("/a", { attr := some attrEx })] = []
    ∧ get_changed_metadata
        (fun _ => { attr := some { attrEx with st_size := 43 } })
        [("/a", { attr := some attrEx })] =
      [("/a", { attr := some { attrEx with st_size := 43 } })] := by
  constructor
  · exact (get_changed_metadata_significance
      (fun _ => { attr := some { attrEx with st_atime_ns := some 99 } }) "/a"
      { attr := some attrEx }).2.1 attrEx (some 99) rfl rfl
  · exact (get_changed_metadata_significance
      (fun _ => { attr := some { attrEx with st_size := 43 } }) "/a"
      { attr := some attrEx }).2.2.1 attrEx { attrEx with st_size := 43 } rfl rfl
      (Or.inl (by decide))

/-- **C5.** For a cached entry whose metadata carries attributes (and no
error), `RemoteCache.get_metadata` returns a copy of the metadata whose mode
has `S_IWUSR`, `S_IWGRP` and `S_IWOTH` cleared (bits 1, 4 and 7), while the
metadata stored in the entry — in particular its mode — is unchanged by the
call. -/
theorem get_metadata_readonly (now : Nat) (e : CacheEntry) (a : Attributes)
    (herr : e.meta.error = none) (hattr : e.meta.attr = some a) :
    (get_metadata now e).2 = .ok { e.meta with attr := some a.as_readonly }
    ∧ (get_metadata now e).1.meta = e.meta
    ∧ (∀ i, a.as_readonly.st_mode.testBit i =
        (a.st_mode.testBit i && !((S_IWUSR ||| S_IWGRP ||| S_IWOTH).testBit i)))
    ∧ a.as_readonly.st_mode.testBit 1 = false
    ∧ a.as_readonly.st_mode.testBit 4 = false
    ∧ a.as_readonly.st_mode.testBit 7 = false := by
  have hbit : ∀ i, a.as_readonly.st_mode.testBit i =
      (a.st_mode.testBit i && !((S_IWUSR ||| S_IWGRP ||| S_IWOTH).testBit i)) := by
    intro i
    simp [Attributes.as_readonly, Nat.testBit_ldiff]
  have hmask1 : (S_IWUSR ||| S_IWGRP ||| S_IWOTH).testBit 1 = true := by decide
  have hmask4 : (S_IWUSR ||| S_IWGRP ||| S_IWOTH).testBit 4 = true := by decide
  have hmask7 : (S_IWUSR ||| S_IWGRP ||| S_IWOTH).testBit 7 = true := by decide
  refine ⟨?_, ?_, hbit, ?_, ?_, ?_⟩
  · simp [get_metadata, herr, hattr]
  · simp [get_metadata]
  · rw [hbit 1, hmask1]; simp
  · rw [hbit 4, hmask4]; simp
  · rw [hbit 7, hmask7]; simp

/-- Witness for C5 at the sample entry with mode `0o666`. -/
theorem get_metadata_readonly_witness :
    (get_metadata 9 entryEx).2 =
      .ok { entryEx.meta with attr := some attrEx.as_readonly }
    ∧ (get_metadata 9 entryEx).1.meta = entryEx.meta
    ∧ attrEx.as_readonly.st_mode.testBit 7 = false :=
  ⟨(get_metadata_readonly 9 entryEx attrEx rfl rfl).1,
   (get_metadata_readonly 9 entryEx attrEx rfl rfl).2.1,
   (get_metadata_readonly 9 entryEx attrEx rfl rfl).2.2.2.2.2⟩

/-- **C10.** `RemoteCache.get_metadata` re-raises the stored error when
`meta.error` is set, raises `ValueError("entry is missing attributes")` when
neither error nor attributes are present, and returns normally only when
attributes are present (so an entry with neither can never reach the
file-system adapter). -/
theorem get_metadata_error_cases (now : Nat) (e : CacheEntry) :
    (∀ err, e.meta.error = some err → (get_metadata now e).2 = .error err)
    ∧ (e.meta.error = none → e.meta.attr = none →
        (get_metadata now e).2 = .error missingAttrError)
    ∧ (∀ m, (get_metadata now e).2 = .ok m →
        e.meta.error = none ∧ e.meta.attr.isSome) := by
  refine ⟨?_, ?_, ?_⟩
  · intro err herr
    simp [get_metadata, herr]
  · intro herr hattr
    simp [get_metadata, herr, hattr]
  · intro m hm
    cases herr : e.meta.error with
    | some err => simp [get_metadata, herr] at hm
    | none =>
      cases hattr : e.meta.attr with
      | none => simp [get_metadata, herr, hattr] at hm
      | some a => simp [hattr]

/-- Witness for C10 at the three sample entries. -/
theorem get_metadata_error_cases_witness :
    (get_metadata 5 entryErrEx).2 = .error ⟨"FileNotFoundError", [.int 2]⟩
    ∧ (get_metadata 5 entryEmptyEx).2 = .error missingAttrError
    ∧ (entryEx.meta.error = none ∧ entryEx.meta.attr.isSome) :=
  ⟨(get_metadata_error_cases 5 entryErrEx).1 ⟨"FileNotFoundError", [.int 2]⟩ rfl,
   (get_metadata_error_cases 5 entryEmptyEx).2.1 rfl rfl,
   (get_metadata_error_cases 5 entryEx).2.2
     { entryEx.meta with attr := some attrEx.as_readonly }
     (get_metadata_readonly 5 entryEx attrEx rfl rfl).1⟩

/-- **C6.** If resolving prefetch suggestions fails after the primary fetch
succeeded, `get_metadata_prefetch` and `readfile_prefetch` still return the
primary result paired with an empty prefetch list, and never propagate the
resolver's exception. -/
theorem prefetch_resolver_failure_swallowed (bm : Metadata) (bf : FileContents)
    (rm rf : Except Exc (List PrefetchEntry)) (em ef : Exc)
    (hm : rm = .error em) (hf : rf = .error ef) :
    get_metadata_prefetch bm rm = (bm, [])
    ∧ readfile_prefetch bf rf = (bf, []) := by
  subst hm hf
  exact ⟨rfl, rfl⟩

/-- Witness for C6 at a concrete failing resolver. -/
theorem prefetch_resolver_failure_swallowed_witness :
    get_metadata_prefetch { attr := some attrEx }
        (.error ⟨"RuntimeError", []⟩) = ({ attr := some attrEx }, [])
    ∧ readfile_prefetch ⟨[1, 2], "cs", 2⟩ (.error ⟨"RuntimeError", []⟩) =
      (⟨[1, 2], "cs", 2⟩, []) :=
  prefetch_resolver_failure_swallowed { attr := some attrEx } ⟨[1, 2], "cs", 2⟩
    (.error ⟨"RuntimeError", []⟩) (.error ⟨"RuntimeError", []⟩)
    ⟨"RuntimeError", []⟩ ⟨"RuntimeError", []⟩ rfl rfl

/-- **C8.** Deserializing the serialized form of any exception preserves its
args; when the class name denotes a known builtin exception type the kind is
preserved (the round trip is the identity), otherwise the result is a generic
`Exception` carrying the original args. -/
theorem exception_roundtrip (isBuiltinExc : String → Bool) (e : Exc) :
    (deserialize_exception isBuiltinExc (serialize_exception e)).args = e.args
    ∧ (isBuiltinExc e.kind = true →
        deserialize_exception isBuiltinExc (serialize_exception e) = e)
    ∧ (isBuiltinExc e.kind = false →
        deserialize_exception isBuiltinExc (serialize_exception e) =
          { kind := "Exception", args := e.args }) := by
  refine ⟨?_, ?_, ?_⟩
  · by_cases h : isBuiltinExc e.kind <;>
      simp [serialize_exception, deserialize_exception, h]
  · intro h
    simp [serialize_exception, deserialize_exception, h]
  · intro h
    simp [serialize_exception, deserialize_exception, h]

/-!
## Lemmas about the LRU pass
-/

theorem insertByAccess_perm (x : String × CacheEntry)
    (l : List (String × CacheEntry)) : (insertByAccess x l).Perm (x :: l) := by
  induction l with
  | nil => simp [insertByAccess]
  | cons y ys ih =>
    simp only [insertByAccess]
    split
    · exact List.Perm.refl _
    · exact (ih.cons y).trans (List.Perm.swap x y ys)

theorem sortByAccess_perm (l : List (String × CacheEntry)) :
    (sortByAccess l).Perm l := by
  induction l with
  | nil => exact List.Perm.refl _
  | cons x xs ih => exact (insertByAccess_perm x (sortByAccess xs)).trans (ih.cons x)

theorem insertByAccess_sorted (x : String × CacheEntry)
    (l : List (String × CacheEntry))
    (h : l.Pairwise (fun a b => a.2.last_access ≤ b.2.last_access)) :
    (insertByAccess x l).Pairwise (fun a b => a.2.last_access ≤ b.2.last_access) := by
  induction l with
  | nil => simp [insertByAccess]
  | cons y ys ih =>
    rw [List.pairwise_cons] at h
    simp only [insertByAccess]
    split
    · rename_i hxy
      refine List.pairwise_cons.mpr ⟨?_, List.pairwise_cons.mpr h⟩
      intro b hb
      rcases List.mem_cons.mp hb with rfl | hb
      · exact hxy
      · exact le_trans hxy (h.1 b hb)
    · rename_i hxy
      refine List.pairwise_cons.mpr ⟨?_, ih h.2⟩
      intro b hb
      rcases List.mem_cons.mp ((insertByAccess_perm x ys).mem_iff.mp hb) with rfl | hb
      · exact le_of_not_le hxy
      · exact h.1 b hb

theorem sortByAccess_sorted (l : List (String × CacheEntry)) :
    (sortByAccess l).Pairwise (fun a b => a.2.last_access ≤ b.2.last_access) := by
  induction l with
  | nil => simp [sortByAccess]
  | cons x xs ih => exact insertByAccess_sorted x (sortByAccess xs) ih

theorem totalBlobSize_perm {l₁ l₂ : List (String × CacheEntry)}
    (h : l₁.Perm l₂) : totalBlobSize l₁ = totalBlobSize l₂ := by
  unfold totalBlobSize
  exact (h.map (fun kv => blobSize kv.2.contents)).sum_eq

theorem stripPass_length (maxS : Nat) (l : List (String × CacheEntry)) (sz : Nat) :
    (stripPass maxS l sz).length = l.length := by
  induction l generalizing sz with
  | nil => rfl
  | cons kv rest ih =>
    obtain ⟨k, e⟩ := kv
    simp only [stripPass]
    split <;> simp [ih]

theorem totalBlobSize_cons (k : String) (e : CacheEntry)
    (l : List (String × CacheEntry)) :
    totalBlobSize ((k, e) :: l) = blobSize e.contents + totalBlobSize l := by
  simp [totalBlobSize]

theorem totalBlobSize_cons_none (k : String) (e : CacheEntry)
    (t : List (String × CacheEntry)) :
    totalBlobSize ((k, { e with contents := none }) :: t) = totalBlobSize t := by
  simp [totalBlobSize, blobSize]

theorem stripPass_total_le (maxS : Nat) (l : List (String × CacheEntry)) (sz : Nat) :
    totalBlobSize (stripPass maxS l sz) ≤ totalBlobSize l := by
  induction l generalizing sz with
  | nil => simp [stripPass]
  | cons kv rest ih =>
    obtain ⟨k, e⟩ := kv
    simp only [stripPass]
    split
    · rw [totalBlobSize_cons_none, totalBlobSize_cons]
      exact le_trans (ih _) (Nat.le_add_left _ _)
    · rw [totalBlobSize_cons, totalBlobSize_cons]
      exact Nat.add_le_add_left (ih sz) _

theorem stripPass_bounded (maxS : Nat) (l : List (String × CacheEntry)) (sz : Nat)
    (h : totalBlobSize l ≤ sz) :
    totalBlobSize (stripPass maxS l sz) ≤ maxS
    ∨ ∀ kv ∈ stripPass maxS l sz, kv.2.contents = none := by
  induction l generalizing sz with
  | nil => exact Or.inl (by simp [stripPass, totalBlobSize])
  | cons kv rest ih =>
    obtain ⟨k, e⟩ := kv
    rw [totalBlobSize_cons] at h
    simp only [stripPass]
    by_cases hc : maxS < sz ∧ e.contents.isSome
    · rw [if_pos hc]
      have hsz' : totalBlobSize rest ≤ sz - blobSize e.contents := by omega
      rcases ih (sz - blobSize e.contents) hsz' with hle | hnone
      · exact Or.inl (by rw [totalBlobSize_cons]; simpa [blobSize] using hle)
      · refine Or.inr ?_
        intro kv hkv
        rcases List.mem_cons.mp hkv with rfl | hkv
        · rfl
        · exact hnone kv hkv
    · rw [if_neg hc]
      by_cases hsz : maxS < sz
      · have hcontents : e.contents = none := by
          rcases hc' : e.contents with _ | b
          · rfl
          · exact absurd ⟨hsz, by simp [hc']⟩ hc
        have hrest : totalBlobSize rest ≤ sz := by
          simp [hcontents, blobSize] at h; omega
        rcases ih sz hrest with hle | hnone
        · exact Or.inl (by rw [totalBlobSize_cons]; simpa [hcontents, blobSize] using hle)
        · refine Or.inr ?_
          intro kv hkv
          rcases List.mem_cons.mp hkv with rfl | hkv
          · exact hcontents
          · exact hnone kv hkv
      · refine Or.inl ?_
        rw [totalBlobSize_cons]
        have : totalBlobSize (stripPass maxS rest sz) ≤ totalBlobSize rest :=
          stripPass_total_le maxS rest sz
        omega

theorem stripPass_no_drop (maxS : Nat) (l : List (String × CacheEntry)) (sz : Nat)
    (h : sz ≤ maxS) : stripPass maxS l sz = l := by
  induction l with
  | nil => rfl
  | cons kv rest ih =>
    obtain ⟨k, e⟩ := kv
    simp only [stripPass]
    rw [if_neg (fun hc => (Nat.not_lt.mpr h) hc.1)]
    rw [ih]

theorem stripPass_prefix_form (maxS : Nat) (l : List (String × CacheEntry)) (sz : Nat) :
    ∃ c, stripPass maxS l sz = (l.take c).map clearContents ++ l.drop c := by
  induction l generalizing sz with
  | nil => exact ⟨0, rfl⟩
  | cons kv rest ih =>
    obtain ⟨k, e⟩ := kv
    by_cases hc : maxS < sz ∧ e.contents.isSome
    · obtain ⟨c, hcform⟩ := ih (sz - blobSize e.contents)
      refine ⟨c + 1, ?_⟩
      simp only [stripPass, if_pos hc, List.take_succ_cons, List.map_cons,
        List.drop_succ_cons, List.cons_append]
      rw [hcform]
      rfl
    · by_cases hsz : maxS < sz
      · have hcontents : e.contents = none := by
          rcases hc' : e.contents with _ | b
          · rfl
          · exact absurd ⟨hsz, by simp [hc']⟩ hc
        obtain ⟨c, hcform⟩ := ih sz
        refine ⟨c + 1, ?_⟩
        simp only [stripPass, if_neg hc, List.take_succ_cons, List.map_cons,
          List.drop_succ_cons, List.cons_append]
        rw [hcform]
        have : clearContents (k, e) = (k, e) := by
          simp [clearContents, hcontents]
          cases e
          simp_all
        rw [this]
      · refine ⟨0, ?_⟩
        simp only [List.take_zero, List.map_nil, List.nil_append, List.drop_zero]
        exact stripPass_no_drop maxS ((k, e) :: rest) sz (by omega)

theorem lruGo_eq_drop_stripPass (maxE maxS : Nat)
    (l : List (String × CacheEntry)) (cnt sz : Nat) :
    lruGo maxE maxS l cnt sz = (stripPass maxS l sz).drop (cnt - maxE) := by
  induction l generalizing cnt sz with
  | nil => simp [lruGo, stripPass]
  | cons kv rest ih =>
    obtain ⟨k, e⟩ := kv
    by_cases hcnt : maxE < cnt
    · have hdrop : cnt - maxE = (cnt - 1 - maxE) + 1 := by omega
      by_cases hc : maxS < sz ∧ e.contents.isSome
      · simp only [lruGo, if_pos hc, if_pos hcnt, stripPass]
        rw [hdrop, List.drop_succ_cons]
        exact ih (cnt - 1) (sz - blobSize e.contents)
      · simp only [lruGo, if_neg hc, if_pos hcnt, stripPass]
        rw [hdrop, List.drop_succ_cons]
        exact ih (cnt - 1) sz
    · have hdrop : cnt - maxE = 0 := by omega
      by_cases hc : maxS < sz ∧ e.contents.isSome
      · simp only [lruGo, if_pos hc, if_neg hcnt, stripPass]
        rw [hdrop, List.drop_zero, ih cnt (sz - blobSize e.contents), hdrop,
          List.drop_zero]
      · simp only [lruGo, if_neg hc, if_neg hcnt, stripPass]
        rw [hdrop, List.drop_zero, ih cnt sz, hdrop, List.drop_zero]

theorem totalBlobSize_drop_le (l : List (String × CacheEntry)) (kn : Nat) :
    totalBlobSize (l.drop kn) ≤ totalBlobSize l := by
  induction l generalizing kn with
  | nil => simp
  | cons kv rest ih =>
    cases kn with
    | zero => exact le_refl _
    | succ n =>
      obtain ⟨k, e⟩ := kv
      rw [List.drop_succ_cons, totalBlobSize_cons]
      exact le_trans (ih n) (Nat.le_add_left _ _)

theorem totalBlobSize_eq_zero {l : List (String × CacheEntry)}
    (h : ∀ kv ∈ l, kv.2.contents = none) : totalBlobSize l = 0 := by
  apply List.sum_eq_zero
  intro x hx
  obtain ⟨kv, hkv, rfl⟩ := List.mem_map.mp hx
  simp [h kv hkv, blobSize]

theorem lru_cleanup_length_le (maxE maxS : Nat)
    (entries : List (String × CacheEntry)) :
    (lru_cleanup maxE maxS entries).length ≤ maxE := by
  rw [lru_cleanup, lruGo_eq_drop_stripPass, List.length_drop, stripPass_length]
  omega

theorem lru_cleanup_size_le (maxE maxS : Nat)
    (entries : List (String × CacheEntry)) :
    totalBlobSize (lru_cleanup maxE maxS entries) ≤ maxS := by
  rw [lru_cleanup, lruGo_eq_drop_stripPass]
  rcases stripPass_bounded maxS (sortByAccess entries)
      (totalBlobSize (sortByAccess entries)) (le_refl _) with hle | hnone
  · exact le_trans (totalBlobSize_drop_le _ _) hle
  · have : ∀ kv ∈ (stripPass maxS (sortByAccess entries)
        (totalBlobSize (sortByAccess entries))).drop
        ((sortByAccess entries).length - maxE), kv.2.contents = none :=
      fun kv hkv => hnone kv (List.mem_of_mem_drop hkv)
    rw [totalBlobSize_eq_zero this]
    exact Nat.zero_le _

theorem lru_cleanup_eq (maxE maxS : Nat) (entries : List (String × CacheEntry)) :
    lru_cleanup maxE maxS entries =
      (stripPass maxS (sortByAccess entries)
        (totalBlobSize (sortByAccess entries))).drop
        ((sortByAccess entries).length - maxE) :=
  lruGo_eq_drop_stripPass maxE maxS (sortByAccess entries)
    (sortByAccess entries).length (totalBlobSize (sortByAccess entries))

/-- **C1.** After `RemoteCache.save`, the saved index holds at most
`max_entries` entries whose retained blobs total at most `max_size` bytes,
and the LRU pass works through the merged entries in ascending `last_access`
order: the saved index is obtained from the access-sorted merged entries by
clearing the contents of some prefix (size eviction) and then deleting a
prefix of `length - max_entries` entries (entry eviction), so an entry with
smaller `last_access` always loses its contents, and is deleted, before any
entry with larger `last_access`. -/
theorem save_lru_bounds_and_eviction_order (maxE maxS : Nat) (mdc : Bool)
    (mem : List (String × CacheEntry))
    (diskRead : Except Unit (List (String × CacheEntry)))
    (diskFiles : List String) :
    (save maxE maxS mdc mem diskRead diskFiles).1.length ≤ maxE
    ∧ totalBlobSize (save maxE maxS mdc mem diskRead diskFiles).1 ≤ maxS
    ∧ (sortByAccess (save_merged mdc mem diskRead)).Pairwise
        (fun a b => a.2.last_access ≤ b.2.last_access)
    ∧ ∃ c, (save maxE maxS mdc mem diskRead diskFiles).1 =
        (((sortByAccess (save_merged mdc mem diskRead)).take c).map clearContents
          ++ (sortByAccess (save_merged mdc mem diskRead)).drop c).drop
          ((sortByAccess (save_merged mdc mem diskRead)).length - maxE) := by
  have h1 : (save maxE maxS mdc mem diskRead diskFiles).1 =
      lru_cleanup maxE maxS (save_merged mdc mem diskRead) := rfl
  refine ⟨?_, ?_, sortByAccess_sorted _, ?_⟩
  · rw [h1]
    exact lru_cleanup_length_le maxE maxS _
  · rw [h1]
    exact lru_cleanup_size_le maxE maxS _
  · obtain ⟨c, hc⟩ := stripPass_prefix_form maxS
      (sortByAccess (save_merged mdc mem diskRead))
      (totalBlobSize (sortByAccess (save_merged mdc mem diskRead)))
    exact ⟨c, by rw [h1, lru_cleanup_eq, hc]⟩

/-!
## Lemmas about referenced blob storages
-/

theorem referenced_subset_of_sublist {l₁ l₂ : List (String × CacheEntry)}
    (h : l₁.Sublist l₂) {st : String} (hst : st ∈ referencedStorages l₁) :
    st ∈ referencedStorages l₂ :=
  (h.filterMap (fun kv => kv.2.contents.map (·.storage))).subset hst

theorem referenced_perm {l₁ l₂ : List (String × CacheEntry)} (h : l₁.Perm l₂)
    {st : String} (hst : st ∈ referencedStorages l₁) : st ∈ referencedStorages l₂ :=
  ((h.filterMap (fun kv => kv.2.contents.map (·.storage))).mem_iff).mp hst

theorem referencedStorages_cons_none {e : CacheEntry} (k : String)
    (h : e.contents = none) (t : List (String × CacheEntry)) :
    referencedStorages ((k, e) :: t) = referencedStorages t := by
  simp [referencedStorages, List.filterMap_cons, h]

theorem referencedStorages_cons_some {e : CacheEntry} {b : ContentsBlob}
    (k : String) (h : e.contents = some b) (t : List (String × CacheEntry)) :
    referencedStorages ((k, e) :: t) = b.storage :: referencedStorages t := by
  simp [referencedStorages, List.filterMap_cons, h]

theorem referenced_stripPass_subset (maxS : Nat) (l : List (String × CacheEntry))
    (sz : Nat) {st : String} (hst : st ∈ referencedStorages (stripPass maxS l sz)) :
    st ∈ referencedStorages l := by
  induction l generalizing sz with
  | nil => simpa [stripPass] using hst
  | cons kv rest ih =>
    obtain ⟨k, e⟩ := kv
    simp only [stripPass] at hst
    split at hst
    · rw [referencedStorages_cons_none k rfl] at hst
      cases hcont : e.contents with
      | none =>
        rw [referencedStorages_cons_none k hcont]
        exact ih _ hst
      | some b =>
        rw [referencedStorages_cons_some k hcont]
        exact List.mem_cons_of_mem _ (ih _ hst)
    · cases hcont : e.contents with
      | none =>
        rw [referencedStorages_cons_none k hcont] at hst ⊢
        exact ih _ hst
      | some b =>
        rw [referencedStorages_cons_some k hcont] at hst ⊢
        rcases List.mem_cons.mp hst with rfl | hst
        · exact List.mem_cons_self _ _
        · exact List.mem_cons_of_mem _ (ih _ hst)

theorem referenced_lru_cleanup_subset (maxE maxS : Nat)
    (entries : List (String × CacheEntry)) {st : String}
    (hst : st ∈ referencedStorages (lru_cleanup maxE maxS entries)) :
    st ∈ referencedStorages entries := by
  rw [lru_cleanup_eq] at hst
  have h2 := referenced_subset_of_sublist
    (List.drop_sublist _ _) hst
  have h3 := referenced_stripPass_subset maxS _ _ h2
  exact referenced_perm (sortByAccess_perm entries) h3

/-- **C3 (amended).** After `RemoteCache.save`, every file remaining in the
contents directory is referenced by some surviving entry — no orphans,
unconditionally; and, provided every blob referenced after the merge step was
present on disk when `save` ran, every `ContentsBlob` storage path referenced
by a surviving entry exists on disk.  (Without that proviso a reference whose
blob had already disappeared from disk survives `save` dangling; see the
counterexample.) -/
theorem save_blob_consistency (maxE maxS : Nat) (mdc : Bool)
    (mem : List (String × CacheEntry))
    (diskRead : Except Unit (List (String × CacheEntry)))
    (diskFiles : List String) :
    (∀ f ∈ (save maxE maxS mdc mem diskRead diskFiles).2,
        f ∈ referencedStorages (save maxE maxS mdc mem diskRead diskFiles).1)
    ∧ ((∀ st ∈ referencedStorages (save_merged mdc mem diskRead), st ∈ diskFiles) →
        ∀ st ∈ referencedStorages (save maxE maxS mdc mem diskRead diskFiles).1,
          st ∈ (save maxE maxS mdc mem diskRead diskFiles).2) := by
  have h1 : (save maxE maxS mdc mem diskRead diskFiles).1 =
      lru_cleanup maxE maxS (save_merged mdc mem diskRead) := rfl
  have h2 : (save maxE maxS mdc mem diskRead diskFiles).2 =
      diskFiles.filter (fun f =>
        (referencedStorages (save maxE maxS mdc mem diskRead diskFiles).1).contains f) :=
    rfl
  constructor
  · intro f hf
    rw [h2] at hf
    have := (List.mem_filter.mp hf).2
    simpa [List.contains] using this
  · intro h st hst
    have hdisk : st ∈ diskFiles := by
      apply h
      rw [h1] at hst
      exact referenced_lru_cleanup_subset maxE maxS _ hst
    rw [h2]
    refine List.mem_filter.mpr ⟨hdisk, ?_⟩
    simpa [List.contains] using hst

/-- Counterexample to C3 as stated: if the referenced blob file `"blob1"` has
disappeared from the contents directory before `save` runs (the directory is
empty), the surviving entry still references `"blob1"` after `save`, but no
such file exists on disk. -/
theorem save_blob_consistency_counterexample :
    referencedStorages (save 10 10 false memEx (.error ()) []).1 = ["blob1"]
    ∧ (save 10 10 false memEx (.error ()) []).2 = []
    ∧ ¬ (∀ st ∈ referencedStorages (save 10 10 false memEx (.error ()) []).1,
          st ∈ (save 10 10 false memEx (.error ()) []).2) := by
  refine ⟨rfl, rfl, ?_⟩
  intro hall
  have hmem : "blob1" ∈ referencedStorages (save 10 10 false memEx (.error ()) []).1 := by
    rw [show referencedStorages (save 10 10 false memEx (.error ()) []).1 =
      ["blob1"] from rfl]
    exact List.mem_singleton.mpr rfl
  have h2 := hall "blob1" hmem
  rw [show (save 10 10 false memEx (.error ()) []).2 = ([] : List String) from rfl] at h2
  exact List.not_mem_nil _ h2

/-- Witness for the amended C3: with the referenced blob present on disk
(plus an orphan), the blob survives garbage collection. -/
theorem save_blob_consistency_witness :
    "blob1" ∈ (save 10 10 false memEx (.error ()) ["blob1", "orphan"]).2 := by
  refine (save_blob_consistency 10 10 false memEx (.error ())
      ["blob1", "orphan"]).2 ?_ "blob1" ?_
  · intro st hst
    rw [show referencedStorages (save_merged false memEx (.error ())) =
      ["blob1"] from rfl] at hst
    rcases List.mem_singleton.mp hst with rfl
    exact List.mem_cons_self _ _
  · rw [show referencedStorages
      (save 10 10 false memEx (.error ()) ["blob1", "orphan"]).1 = ["blob1"] from rfl]
    exact List.mem_singleton.mpr rfl

/-- Witness for C8: a known builtin kind round-trips identically, an unknown
kind is generalized to `Exception` with the args kept. -/
theorem exception_roundtrip_witness :
    deserialize_exception (fun s => s == "OSError")
        (serialize_exception ⟨"OSError", [.int 5]⟩) = ⟨"OSError", [.int 5]⟩
    ∧ deserialize_exception (fun s => s == "OSError")
        (serialize_exception ⟨"MyError", [.str "x"]⟩) =
      ⟨"Exception", [.str "x"]⟩ :=
  ⟨(exception_roundtrip (fun s => s == "OSError") ⟨"OSError", [.int 5]⟩).2.1 rfl,
   (exception_roundtrip (fun s => s == "OSError") ⟨"MyError", [.str "x"]⟩).2.2 rfl⟩


/-- **C2 (code bug).** The `CacheEntry` docstring promises that `last_update`
"is reset every time the cache entry (metadata or contents) have changed",
but `open_contents` replaces a dirty entry's contents without touching
`last_update`: at this concrete input the refresh swaps the blob (size 3,
checksum `"cs1"` to size 2, checksum `"cs2"`) while `last_update` keeps its
old value. -/
theorem open_contents_refresh_preserves_last_update :
    open_contents clientEx (fun _ _ => some 7) namesEx 5 dirtyEntryEx =
      some (.ok (7, { dirtyEntryEx with contents := some freshBlobEx }, 0))
    ∧ ({ dirtyEntryEx with contents := some freshBlobEx } : CacheEntry).contents ≠
        dirtyEntryEx.contents
    ∧ ({ dirtyEntryEx with contents := some freshBlobEx } : CacheEntry).last_update =
        dirtyEntryEx.last_update := by
  refine ⟨rfl, ?_, rfl⟩
  intro h
  have hs := congrArg (fun c => (Option.map (fun b => b.size) c).getD 0) h
  simp [freshBlobEx, dirtyEntryEx] at hs

/-- Counterexample to C7 as stated: with a blob file that is missing at every
`os.open` attempt (and refreshes that succeed), `open_contents` is still
looping after 25 iterations — the `while True:` loop never surfaces the
failure after the first forced refresh, and never terminates while the blob
stays missing. -/
theorem open_contents_no_surface_counterexample :
    open_contents clientEx (fun _ _ => none) namesEx 25 cleanEntryEx = none := by
  rfl

/-- **C7 (amended).** When the cached blob file is missing at open time,
`open_contents` force-refreshes after every failed open and retries without
bound: if every open fails (and refreshes succeed) the loop never returns and
never surfaces an error, for any number of iterations; when the retry after
the single forced refresh succeeds, the call returns its descriptor having
performed exactly one forced refresh; an error raised by the forced refresh
itself does propagate. -/
theorem open_contents_missing_blob_retries (client : ContentsClient)
    (names : Nat → String) :
    (∀ fuel i e, e.contents.isSome = true →
      (∀ p, ∃ c, client.readfile p = .ok c) →
      openLoop client (fun _ _ => none) names fuel i e = none)
    ∧ (∀ (openO : Nat → String → Option Nat) fuel e blob blob' fd,
        e.contents = some blob → openO 0 blob.storage = none →
        update_contents client (names 1) e true = .ok blob' →
        openO 1 blob'.storage = some fd →
        openLoop client openO names (fuel + 2) 0 e =
          some (.ok (fd, { e with contents := some blob' }, 1)))
    ∧ (∀ (openO : Nat → String → Option Nat) fuel e blob exc,
        e.contents = some blob → openO 0 blob.storage = none →
        update_contents client (names 1) e true = .error exc →
        openLoop client openO names (fuel + 1) 0 e = some (.error exc)) := by
  refine ⟨?_, ?_, ?_⟩
  · intro fuel
    induction fuel with
    | zero => intro i e _ _; rfl
    | succ n ih =>
      intro i e hsome hre
      obtain ⟨blob, hblob⟩ := Option.isSome_iff_exists.mp hsome
      obtain ⟨c, hc⟩ := hre e.path
      simp only [openLoop, hblob, update_contents, hc]
      exact ih (i + 1) _ rfl hre
  · intro openO fuel e blob blob' fd hblob hopen0 hupd hopen1
    simp only [openLoop, hblob, hopen0, hupd]
    simp only [openLoop, hopen1]
  · intro openO fuel e blob exc hblob hopen0 hupd
    simp only [openLoop, hblob, hopen0, hupd]

/-- Witness for the amended C7: with the always-missing open oracle the loop
is still running at fuel 7, and with an open oracle that succeeds from the
second attempt on, the call returns descriptor 7 after exactly one forced
refresh. -/
theorem open_contents_missing_blob_retries_witness :
    openLoop clientEx (fun _ _ => none) namesEx 7 0 cleanEntryEx = none
    ∧ openLoop clientEx openOnRetryEx namesEx 5 0 cleanEntryEx =
      some (.ok (7, { cleanEntryEx with contents := some freshBlobEx }, 1)) :=
  ⟨(open_contents_missing_blob_retries clientEx namesEx).1 7 0 cleanEntryEx rfl
      (fun _ => ⟨⟨[9, 9], "cs2", 2⟩, rfl⟩),
   (open_contents_missing_blob_retries clientEx namesEx).2.1 openOnRetryEx 3
      cleanEntryEx { storage := "gone", size := 3, checksum := "c0" } freshBlobEx 7
      rfl rfl rfl rfl⟩

/-!
## Lemmas about path components and `commonpath`
-/

theorem commonStem_prefix_left : ∀ a b : List (List Char), commonStem a b <+: a
  | [], _ => by simp [commonStem]
  | _ :: _, [] => by simp [commonStem]
  | x :: as, y :: bs => by
    simp only [commonStem]
    split
    · rename_i hxy
      subst hxy
      obtain ⟨t, ht⟩ := commonStem_prefix_left as bs
      exact ⟨t, by rw [List.cons_append, ht]⟩
    · exact List.nil_prefix

theorem commonStem_prefix_right : ∀ a b : List (List Char), commonStem a b <+: b
  | [], _ => by simp [commonStem]
  | _ :: _, [] => by simp [commonStem]
  | x :: as, y :: bs => by
    simp only [commonStem]
    split
    · rename_i hxy
      subst hxy
      obtain ⟨t, ht⟩ := commonStem_prefix_right as bs
      exact ⟨t, by rw [List.cons_append, ht]⟩
    · exact List.nil_prefix

theorem commonStem_eq_of_initial : ∀ (b a : List (List Char)), b <+: a → commonStem a b = b
  | [], a, _ => by cases a <;> rfl
  | y :: bs, a, h => by
    obtain ⟨t, ht⟩ := h
    subst ht
    rw [List.cons_append]
    simp only [commonStem]
    rw [commonStem_eq_of_initial bs (bs ++ t) (List.prefix_append bs t)]
    simp

theorem components_ne_nil (s : String) : ∀ x ∈ components s, x ≠ [] := by
  intro x hx h
  have hp := (List.mem_filter.mp hx).2
  subst h
  simp at hp

theorem joinComps_length_pos (y : List Char) (ys : List (List Char)) (hy : y ≠ []) :
    0 < (joinComps (y :: ys)).length := by
  cases ys with
  | nil => simpa [joinComps] using List.length_pos.mpr hy
  | cons z zs =>
    simp only [joinComps, List.length_append, List.length_cons]
    omega

theorem joinComps_cons_cons (x y : List Char) (ys : List (List Char)) :
    joinComps (x :: y :: ys) = x ++ '/' :: joinComps (y :: ys) := rfl

theorem joinComps_length_lt (xs rest : List (List Char)) (hne : rest ≠ [])
    (hcomp : ∀ x ∈ rest, x ≠ []) :
    (joinComps xs).length < (joinComps (xs ++ rest)).length := by
  induction xs with
  | nil =>
    cases rest with
    | nil => exact absurd rfl hne
    | cons y ys =>
      simpa [joinComps] using
        joinComps_length_pos y ys (hcomp y (List.mem_cons_self y ys))
  | cons x xs' ih =>
    cases xs' with
    | nil =>
      cases rest with
      | nil => exact absurd rfl hne
      | cons y ys =>
        simp only [List.singleton_append, joinComps, List.length_append,
          List.length_cons]
        omega
    | cons x2 xs'' =>
      rw [List.cons_append, List.cons_append, joinComps_cons_cons, joinComps_cons_cons]
      simp only [List.length_append, List.length_cons]
      have hlt := ih
      rw [List.cons_append] at hlt
      omega

theorem joinComps_inj_of_initial (c q : List (List Char)) (hpre : c <+: q)
    (hcomp : ∀ x ∈ q, x ≠ []) (hj : joinComps c = joinComps q) : c = q := by
  obtain ⟨t, ht⟩ := hpre
  by_cases hts : t = []
  · subst hts
    simpa using ht
  · exfalso
    have hcm : ∀ x ∈ t, x ≠ [] := fun x hx =>
      hcomp x (by rw [← ht]; exact List.mem_append_right c hx)
    have hlt := joinComps_length_lt c t hts hcm
    rw [ht, hj] at hlt
    exact lt_irrefl _ hlt

theorem commonpath_eq_iff_boundary (p q : String)
    (hq2 : q.data = '/' :: joinComps (components q)) :
    (['/'] ++ joinComps (commonStem (components p) (components q)) = q.data ↔
      components q <+: components p) := by
  constructor
  · intro h
    rw [hq2] at h
    have hj : joinComps (commonStem (components p) (components q)) =
        joinComps (components q) := by
      simpa using h
    have hcq := joinComps_inj_of_initial _ _ (commonStem_prefix_right _ _)
      (components_ne_nil q) hj
    rw [← hcq]
    exact commonStem_prefix_left _ _
  · intro h
    rw [commonStem_eq_of_initial _ _ h, hq2]
    rfl

theorem anyCommonpathMatch_eq_boundary : ∀ (paths : List String) (p : String),
    isAbs p = true →
    (∀ q ∈ paths, isAbs q = true ∧ q.data = '/' :: joinComps (components q)) →
    anyCommonpathMatch paths p = .ok (boundaryPrefixMatch paths p) := by
  intro paths p hp
  induction paths with
  | nil => intro _; rfl
  | cons q rest ih =>
    intro hnorm
    obtain ⟨hq1, hq2⟩ := hnorm q (List.mem_cons_self q rest)
    have hcp : commonpath2 p q =
        .ok (['/'] ++ joinComps (commonStem (components p) (components q))) := by
      simp [commonpath2, hp, hq1]
    simp only [anyCommonpathMatch, hcp]
    by_cases hc : ['/'] ++ joinComps (commonStem (components p) (components q)) = q.data
    · rw [if_pos hc]
      have hpre : components q <+: components p :=
        (commonpath_eq_iff_boundary p q hq2).mp hc
      have hqt : (components q).isPrefixOf (components p) = true :=
        List.isPrefixOf_iff_prefix.mpr hpre
      have hb : boundaryPrefixMatch (q :: rest) p = true := by
        simp [boundaryPrefixMatch, List.any_cons, hqt]
      rw [hb]
    · rw [if_neg hc]
      have hnpre : ¬ components q <+: components p := fun hpre =>
        hc ((commonpath_eq_iff_boundary p q hq2).mpr hpre)
      have hqb : (components q).isPrefixOf (components p) = false := by
        cases hb : (components q).isPrefixOf (components p) with
        | false => rfl
        | true => exact absurd (List.isPrefixOf_iff_prefix.mp hb) hnpre
      rw [ih (fun r hr => hnorm r (List.mem_cons_of_mem q hr))]
      have hb : boundaryPrefixMatch (q :: rest) p = boundaryPrefixMatch rest p := by
        simp [boundaryPrefixMatch, List.any_cons, hqb]
      rw [hb]

/-- **C9.** For an absolute path and normalized absolute configured paths,
`RemoteCache.is_cacheable` returns true exactly when some configured path is
a component-boundary prefix of the probed path (so `"/usr/lib"` matches under
`"/usr"` but `"/usr2"` does not), and `LocalCacheService._is_prefetchable`
computes exactly the same predicate, with a null filter accepting every
path. -/
theorem is_cacheable_iff_boundary_match (paths : List String) (p : String)
    (hp : isAbs p = true)
    (hnorm : ∀ q ∈ paths, isAbs q = true ∧ q.data = '/' :: joinComps (components q)) :
    is_cacheable paths p = .ok (boundaryPrefixMatch paths p)
    ∧ (∀ ps, is_prefetchable (some ps) p = is_cacheable ps p)
    ∧ is_prefetchable none p = .ok true :=
  ⟨anyCommonpathMatch_eq_boundary paths p hp hnorm, fun _ => rfl, rfl⟩

/-- Witness for C9 at the default cacheable path list: `"/usr/lib"` is
cacheable (under `"/usr"`), `"/usr2"` is not. -/
theorem is_cacheable_iff_boundary_match_witness :
    is_cacheable DEFAULT_CACHEABLE_PATHS "/usr/lib" = .ok true
    ∧ is_cacheable DEFAULT_CACHEABLE_PATHS "/usr2" = .ok false := by
  constructor
  · have h := (is_cacheable_iff_boundary_match DEFAULT_CACHEABLE_PATHS "/usr/lib"
      rfl (by decide)).1
    rw [h, show boundaryPrefixMatch DEFAULT_CACHEABLE_PATHS "/usr/lib" = true
      from by decide]
  · have h := (is_cacheable_iff_boundary_match DEFAULT_CACHEABLE_PATHS "/usr2"
      rfl (by decide)).1
    rw [h, show boundaryPrefixMatch DEFAULT_CACHEABLE_PATHS "/usr2" = false
      from by decide]

end Outrun
